import Mathlib

/-!
Verification of the NTT table-generation tools of the Bliss repository
(src/tools/psi_power_tables.c and src/tools/shoup_tables.c).

The C sources are embedded shallowly:

* `uint32_t` arithmetic is modelled on `Nat` with an explicit reduction
  `% u32` (`u32 = 2^32`) wherever the C code multiplies two `uint32_t`
  values, since unsigned overflow wraps.
* the `int32_t` state of `inverse` is modelled on `Int`; the
  `uint32_t → int32_t` conversions performed by the initialisation
  `r1 = n; r2 = q;` are made explicit by `toInt32`.  Inside the loop the
  `assert(r1 >= 0)` together with the loop guard `r2 > 0` means every
  division the model performs is on nonnegative operands, where C's
  truncated division agrees with Lean's `/` on `Int`; likewise the
  normalisation `u1 % q; if (u1 < 0) u1 += q` computes the representative
  in `[0, q)`, which is what the model's `%`-then-fix computes.
* loops are written as fuel-indexed structural recursions so that every
  definition evaluates inside the kernel; each carries enough fuel, which
  the accompanying lemmas prove.
* `assert` is modelled as an `Option`/constructor failure outcome, and
  `exit` after a diagnostic as `Except.error`.
-/

namespace Bliss

/-- `2^32`, the modulus of `uint32_t` arithmetic. -/
def u32 : Nat := 4294967296

/-- The value a `uint32_t` gets when stored into an `int32_t`
(two's-complement wrap-around). -/
def toInt32 (x : Nat) : Int :=
  if x % u32 < 2147483648 then ((x % u32 : Nat) : Int)
  else ((x % u32 : Nat) : Int) - 4294967296

/-- The value of an `int32_t` arithmetic operation whose mathematical result is
`x`: two's-complement wrap-around into `[-2^31, 2^31)`.  Used where the C code
multiplies two `int32_t` values whose product can exceed the type. -/
def wrapInt32 (x : Int) : Int := (x + 2147483648) % 4294967296 - 2147483648

/-- Loop of `power` (src/tools/psi_power_tables.c:28, src/tools/shoup_tables.c:22):
binary square-and-multiply on `uint32_t` values.  The first argument is fuel;
`k` halves at every step, so fuel `k + 1` always suffices. -/
def powerLoop (q : Nat) : Nat → Nat → Nat → Nat → Nat
  | 0, _, _, y => y
  | fuel + 1, x, k, y =>
    if k = 0 then y
    else powerLoop q fuel (x * x % u32 % q) (k / 2)
      (if k % 2 = 1 then y * x % u32 % q else y)

/-- `power(x, k, q)`: `x^k` modulo `q` in `uint32_t` arithmetic. -/
def power (x k q : Nat) : Nat := powerLoop q (k + 1) x k 1

/-- Loop of `inverse` (src/tools/psi_power_tables.c:48, src/tools/shoup_tables.c:42):
extended Euclid with Bezout coefficients, including the three `assert`s at the
top of the body.  `none` means an assert failed or the fuel ran out (`inverse`
always passes enough fuel: the second remainder strictly decreases). -/
def euclidLoop (n q : Int) : Nat → Int → Int → Int → Int → Int → Int → Option (Int × Int × Int)
  | 0, _, _, _, _, _, _ => none
  | fuel + 1, r1, u1, v1, r2, u2, v2 =>
    if 0 < r2 then
      if r1 = n * u1 + q * v1 ∧ r2 = n * u2 + q * v2 ∧ 0 ≤ r1 then
        let g := r1 / r2
        euclidLoop n q fuel r2 u2 v2 (r1 - g * r2) (u1 - g * u2) (v1 - g * v2)
      else none
    else some (r1, u1, v1)

/-- Outcome of `inverse`: the `true` branch with the inverse written through the
out-parameter, the `false` branch (not invertible), or an `assert` failure
(process abort). -/
inductive InvResult where
  | ok (v : Nat)
  | notInvertible
  | assertFail
deriving DecidableEq

/-- `inverse(n, q)` (src/tools/psi_power_tables.c:48, src/tools/shoup_tables.c:42).
On `r1 == 1` the Bezout coefficient is normalised into `[0, q)` and the final
`assert((((int32_t) n) * u1) % (int32_t) q == 1)` is checked.  That assert's
product is a 32-bit signed multiplication which wraps when `n * u1` reaches
`2^31` (`wrapInt32`), and C's `%` on signed operands is the truncated
remainder (`Int.tmod`), so the assert can genuinely fail — and the model
returns `assertFail` — on coprime inputs whose inverse is large. -/
def inverse (n q : Nat) : InvResult :=
  let nI := toInt32 n
  let qI := toInt32 q
  match euclidLoop nI qI (qI.toNat + 2) nI 1 0 qI 0 1 with
  | none => .assertFail
  | some (r1, u1, _) =>
    if r1 = 1 then
      let u0 := u1 % qI
      let u := if u0 < 0 then u0 + qI else u0
      if Int.tmod (wrapInt32 (nI * u)) qI = 1 then .ok u.toNat else .assertFail
    else .notInvertible

/-- `power_table` (src/tools/psi_power_tables.c:81): the sequence of values
printed for `x, (x*b) mod q, (x*b^2) mod q, ...`, `n` entries, `uint32_t`
arithmetic. -/
def power_table (n q x b : Nat) : List Nat :=
  match n with
  | 0 => []
  | m + 1 => x :: power_table m q (x * b % u32 % q) b

/-- Inner loop of `build_shoup_table` (src/tools/shoup_tables.c:85-91):
`for (j=0; j<t; j++) { assert(i == t+j); assert(i < n); a[i] = x; i++; x = (x*y)%q; }`.
The first `Nat` argument is the number of remaining iterations `t - j`.
Returns the list of `(index, value)` writes and the final cursor `i`;
`none` means an assert failed. -/
def shoupInner (n q y t : Nat) : Nat → Nat → Nat → Nat → Option (List (Nat × Nat) × Nat)
  | 0, _, i, _ => some ([], i)
  | c + 1, j, i, x =>
    if i = t + j ∧ i < n then
      match shoupInner n q y t c (j + 1) (i + 1) (x * y % u32 % q) with
      | none => none
      | some (ws, i') => some ((i, x) :: ws, i')
    else none

/-- The successive values of `t` in `for (t=1; t<n; t <<= 1)`
(src/tools/shoup_tables.c:82), fuel-indexed; the stage count is at most
`log2 n + 1`, so fuel `n` suffices for the entry point `stageSizes`. -/
def stagesFromF (n : Nat) : Nat → Nat → List Nat
  | 0, _ => []
  | fuel + 1, t => if t < n then t :: stagesFromF n fuel (2 * t) else []

/-- The list of stage sizes `1, 2, 4, ...` below `n`. -/
def stageSizes (n : Nat) : List Nat := stagesFromF n n 1

/-- Outer loop of `build_shoup_table`: for each stage size `t`, compute
`y = power(phi, n/(2*t), q)`, run the inner loop from `x = 1`, and thread the
write cursor `i` through the stages. -/
def shoupStages (n q phi : Nat) : List Nat → Nat → Option (List (Nat × Nat))
  | [], _ => some []
  | t :: ts, i =>
    match shoupInner n q (power phi (n / (2 * t)) q) t t 0 i 1 with
    | none => none
    | some (ws, i') =>
      match shoupStages n q phi ts i' with
      | none => none
      | some ws' => some (ws ++ ws')

/-- All writes of `build_shoup_table` (src/tools/shoup_tables.c:76-93) in
program order: `a[0] = 0` first, then the stage writes with the cursor starting
at `i = 1`.  `none` means one of the cursor asserts failed. -/
def buildShoupWrites (n q phi : Nat) : Option (List (Nat × Nat)) :=
  (shoupStages n q phi (stageSizes n) 1).map (fun ws => (0, 0) :: ws)

/-- The table `build_shoup_table` leaves in the caller's array: the writes
applied in order to a length-`n` array (`malloc`ed storage, modelled as all
zeroes; the coverage theorem shows every cell below `n` is written). -/
def build_shoup_table (n q phi : Nat) : Option (List Nat) :=
  (buildShoupWrites n q phi).map
    (fun ws => ws.foldl (fun a p => a.set p.1 p.2) (List.replicate n 0))

/-- The validator checks of `main` (src/tools/psi_power_tables.c:160-182),
stated mathematically, for a `(q, n, psi)` triple that already passed the
argument bounds: `psi^n ≡ -1 (mod q)`, `psi^i ≢ 1 (mod q)` for `0 < i < n`,
and `n`, `psi` invertible modulo `q`. -/
def validTriple (q n psi : Nat) : Prop :=
  2 ≤ q ∧ q < 65535 ∧ 2 ≤ n ∧ n < 100000 ∧ 2 ≤ psi ∧ psi < q ∧
  psi ^ n % q = q - 1 ∧
  (∀ i, i < n → 1 ≤ i → psi ^ i % q ≠ 1) ∧
  Nat.gcd n q = 1 ∧ Nat.gcd psi q = 1

instance (q n psi : Nat) : Decidable (validTriple q n psi) := by
  unfold validTriple
  infer_instance

/-- The diagnostics each tool can print to stderr before exiting with a
non-zero status. -/
inductive Diag where
  | modulusTooSmall
  | modulusTooLarge
  | sizeTooSmall
  | sizeTooLarge
  | psiOutOfRange
  | notRootOfMinusOne
  | phiAssertFailed
  | notPrimitive
  | sizeNotInvertible
  | psiNotInvertible
  | internalAssert
deriving DecidableEq

/-- `main` of src/tools/psi_power_tables.c as a function of the three
`atol`-parsed arguments: either a diagnostic (printed to stderr before a
non-zero `exit`, with nothing on stdout) or the three tables emitted on
stdout.  The checks appear in the program's order, including the
`assert(power(phi, n, q) == 1)` after check 1. -/
def runPsiTool (a1 a2 a3 : Int) : Except Diag (List (List Nat)) :=
  if a1 ≤ 1 then .error .modulusTooSmall
  else if 65535 ≤ a1 then .error .modulusTooLarge
  else
    let q := a1.toNat
    if a2 ≤ 1 then .error .sizeTooSmall
    else if 100000 ≤ a2 then .error .sizeTooLarge
    else
      let n := a2.toNat
      if a3 ≤ 1 ∨ (q : Int) ≤ a3 then .error .psiOutOfRange
      else
        let psi := a3.toNat
        let phi := psi * psi % u32 % q
        if power psi n q ≠ q - 1 then .error .notRootOfMinusOne
        else if power phi n q ≠ 1 then .error .phiAssertFailed
        else if ∃ i, i < n ∧ 1 ≤ i ∧ power psi i q = 1 then .error .notPrimitive
        else
          match inverse n q with
          | .assertFail => .error .internalAssert
          | .notInvertible => .error .sizeNotInvertible
          | .ok invN =>
            match inverse psi q with
            | .assertFail => .error .internalAssert
            | .notInvertible => .error .psiNotInvertible
            | .ok invPsi =>
              .ok [power_table n q 1 psi,
                   power_table n q 1 invPsi,
                   power_table n q invN invPsi]

/-- `main` of src/tools/shoup_tables.c as a function of the three
`atol`-parsed arguments (allocation failure is not modelled).  Identical to
`runPsiTool` up to and including the `inverse(n, q)` check, then builds and
emits the Shoup table. -/
def runShoupTool (a1 a2 a3 : Int) : Except Diag (List (List Nat)) :=
  if a1 ≤ 1 then .error .modulusTooSmall
  else if 65535 ≤ a1 then .error .modulusTooLarge
  else
    let q := a1.toNat
    if a2 ≤ 1 then .error .sizeTooSmall
    else if 100000 ≤ a2 then .error .sizeTooLarge
    else
      let n := a2.toNat
      if a3 ≤ 1 ∨ (q : Int) ≤ a3 then .error .psiOutOfRange
      else
        let psi := a3.toNat
        let phi := psi * psi % u32 % q
        if power psi n q ≠ q - 1 then .error .notRootOfMinusOne
        else if power phi n q ≠ 1 then .error .phiAssertFailed
        else if ∃ i, i < n ∧ 1 ≤ i ∧ power psi i q = 1 then .error .notPrimitive
        else
          match inverse n q with
          | .assertFail => .error .internalAssert
          | .notInvertible => .error .sizeNotInvertible
          | .ok _ =>
            match build_shoup_table n q phi with
            | none => .error .internalAssert
            | some t => .ok [t]

/-- Validity of the command-line arguments of the psi-power tool, stated
independently of the control flow (spec sections 4.2 and 6): bounds on the
three arguments, the two root checks, and invertibility of `n` and `psi`. -/
def validPsiArgs (a1 a2 a3 : Int) : Prop :=
  1 < a1 ∧ a1 < 65535 ∧ 1 < a2 ∧ a2 < 100000 ∧ 1 < a3 ∧ a3 < a1 ∧
  a3.toNat ^ a2.toNat % a1.toNat = a1.toNat - 1 ∧
  (∀ i, i < a2.toNat → 1 ≤ i → a3.toNat ^ i % a1.toNat ≠ 1) ∧
  Nat.gcd a2.toNat a1.toNat = 1 ∧ Nat.gcd a3.toNat a1.toNat = 1

instance (a1 a2 a3 : Int) : Decidable (validPsiArgs a1 a2 a3) := by
  unfold validPsiArgs
  infer_instance

/-- Validity of the command-line arguments of the Shoup-table tool: as
`validPsiArgs` but without the `psi` invertibility check, which that tool
does not perform. -/
def validShoupArgs (a1 a2 a3 : Int) : Prop :=
  1 < a1 ∧ a1 < 65535 ∧ 1 < a2 ∧ a2 < 100000 ∧ 1 < a3 ∧ a3 < a1 ∧
  a3.toNat ^ a2.toNat % a1.toNat = a1.toNat - 1 ∧
  (∀ i, i < a2.toNat → 1 ≤ i → a3.toNat ^ i % a1.toNat ≠ 1) ∧
  Nat.gcd a2.toNat a1.toNat = 1

instance (a1 a2 a3 : Int) : Decidable (validShoupArgs a1 a2 a3) := by
  unfold validShoupArgs
  infer_instance

end Bliss

namespace Bliss

/-! ### Arithmetic helpers -/

lemma mul_lt_u32 {a b : Nat} (ha : a < 65536) (hb : b < 65536) : a * b < u32 := by
  have h : a * b < 65536 * 65536 := by
    calc a * b ≤ a * 65535 := Nat.mul_le_mul_left a (by omega)
    _ < 65536 * 65536 := by nlinarith
  simpa [u32] using h

lemma mod_mul_strip (q a b : Nat) : a % q * b % q = a * b % q := by
  rw [Nat.mul_mod, Nat.mod_mod_of_dvd a dvd_rfl, ← Nat.mul_mod]

lemma pow_mod_strip (q a b m : Nat) : a * (b % q) ^ m % q = a * b ^ m % q := by
  rw [Nat.mul_mod, ← Nat.pow_mod, ← Nat.mul_mod]

lemma powerLoop_correct :
    ∀ fuel k x y q, k < fuel → 2 ≤ q → q < 65536 → x < 65536 → y < q →
      powerLoop q fuel x k y = y * x ^ k % q := by
  intro fuel
  induction fuel with
  | zero => intro k x y q h; omega
  | succ f ih =>
    intro k x y q hk hq hq16 hx hy
    by_cases h0 : k = 0
    · subst h0
      simp [powerLoop, Nat.mod_eq_of_lt hy]
    · have hxx : x * x % u32 = x * x := Nat.mod_eq_of_lt (mul_lt_u32 hx hx)
      have hyx : y * x % u32 = y * x := Nat.mod_eq_of_lt (mul_lt_u32 (by omega) hx)
      rw [show powerLoop q (f + 1) x k y =
            powerLoop q f (x * x % u32 % q) (k / 2)
              (if k % 2 = 1 then y * x % u32 % q else y) by simp [powerLoop, h0]]
      rw [hxx, hyx]
      have hx' : x * x % q < 65536 := by
        have := Nat.mod_lt (x * x) (show 0 < q by omega); omega
      by_cases hodd : k % 2 = 1
      · rw [if_pos hodd]
        have hy' : y * x % q < q := Nat.mod_lt _ (by omega)
        rw [ih (k / 2) (x * x % q) (y * x % q) q (by omega) hq hq16 hx' hy']
        rw [pow_mod_strip, mod_mul_strip]
        congr 1
        set m := k / 2 with hm
        have hk2 : k = 2 * m + 1 := by omega
        rw [hk2, pow_add, pow_mul, pow_one, ← pow_two]
        ring
      · rw [if_neg hodd]
        rw [ih (k / 2) (x * x % q) y q (by omega) hq hq16 hx' hy]
        rw [pow_mod_strip]
        congr 1
        set m := k / 2 with hm
        have hk2 : k = 2 * m := by omega
        rw [hk2, pow_mul, ← pow_two]

lemma power_correct {x : Nat} (k : Nat) {q : Nat} (hq : 2 ≤ q) (hq16 : q < 65536)
    (hx : x < 65536) : power x k q = x ^ k % q := by
  rw [power, powerLoop_correct (k + 1) k x 1 q (by omega) hq hq16 hx (by omega), one_mul]

lemma power_lt {x : Nat} (k : Nat) {q : Nat} (hq : 2 ≤ q) (hq16 : q < 65536)
    (hx : x < 65536) : power x k q < q := by
  rw [power_correct k hq hq16 hx]
  exact Nat.mod_lt _ (by omega)

/-! ### The extended Euclidean loop -/

lemma toInt32_of_lt {x : Nat} (h : x < 2147483648) : toInt32 x = (x : Int) := by
  have h32 : x % u32 = x := Nat.mod_eq_of_lt (by unfold u32; omega)
  rw [toInt32, h32, if_pos h]

lemma int_gcd_step (a b : Int) (ha : 0 ≤ a) (hb : 0 < b) :
    Int.gcd b (a % b) = Int.gcd a b := by
  obtain ⟨m, rfl⟩ := Int.eq_ofNat_of_zero_le ha
  obtain ⟨k, rfl⟩ := Int.eq_ofNat_of_zero_le hb.le
  have hcast : (m : Int) % (k : Int) = ((m % k : Nat) : Int) := by push_cast; ring
  rw [hcast, Int.gcd_natCast_natCast, Int.gcd_natCast_natCast,
    Nat.gcd_comm k (m % k), ← Nat.gcd_rec k m, Nat.gcd_comm k m]

lemma euclidLoop_spec (n q : Int) :
    ∀ (fuel : Nat) (r1 u1 v1 r2 u2 v2 : Int), r2.toNat < fuel →
      0 ≤ r1 → 0 ≤ r2 → r1 = n * u1 + q * v1 → r2 = n * u2 + q * v2 →
      ∃ U V, euclidLoop n q fuel r1 u1 v1 r2 u2 v2 =
          some (((Int.gcd r1 r2 : Nat) : Int), U, V) ∧
        ((Int.gcd r1 r2 : Nat) : Int) = n * U + q * V := by
  intro fuel
  induction fuel with
  | zero => intro r1 u1 v1 r2 u2 v2 hf; omega
  | succ f ih =>
    intro r1 u1 v1 r2 u2 v2 hf hr1 hr2 hb1 hb2
    by_cases hpos : 0 < r2
    · have hmod : r1 - r1 / r2 * r2 = r1 % r2 := by rw [Int.emod_def]; ring
      have hmn : 0 ≤ r1 % r2 := Int.emod_nonneg r1 (ne_of_gt hpos)
      have hml : r1 % r2 < r2 := Int.emod_lt_of_pos r1 hpos
      have step : euclidLoop n q (f + 1) r1 u1 v1 r2 u2 v2 =
          euclidLoop n q f r2 u2 v2 (r1 - r1 / r2 * r2)
            (u1 - r1 / r2 * u2) (v1 - r1 / r2 * v2) := by
        simp only [euclidLoop]
        rw [if_pos hpos, if_pos ⟨hb1, hb2, hr1⟩]
      have hb2' : r1 - r1 / r2 * r2 = n * (u1 - r1 / r2 * u2) + q * (v1 - r1 / r2 * v2) := by
        linear_combination hb1 - (r1 / r2) * hb2
      obtain ⟨U, V, hloop, hbez⟩ :=
        ih r2 u2 v2 (r1 - r1 / r2 * r2) (u1 - r1 / r2 * u2) (v1 - r1 / r2 * v2)
          (by rw [hmod]; omega) hr2 (by rw [hmod]; exact hmn) hb2 hb2'
      refine ⟨U, V, ?_, ?_⟩
      · rw [step, hloop]
        rw [hmod, int_gcd_step r1 r2 hr1 hpos]
      · rw [← int_gcd_step r1 r2 hr1 hpos, ← hmod]
        exact hbez
    · have hz : r2 = 0 := by omega
      subst hz
      refine ⟨u1, v1, ?_, ?_⟩
      · have : ((Int.gcd r1 0 : Nat) : Int) = r1 := by
          rw [Int.gcd_zero_right, Int.natAbs_of_nonneg hr1]
        simp only [euclidLoop, this]
        rw [if_neg hpos]
      · rw [Int.gcd_zero_right, Int.natAbs_of_nonneg hr1]
        exact hb1

lemma wrapInt32_eq_self {x : Int} (h1 : -2147483648 ≤ x) (h2 : x < 2147483648) :
    wrapInt32 x = x := by
  unfold wrapInt32
  omega

lemma inverse_spec (n q : Nat) (hn : 1 ≤ n) (hn31 : n < 2147483648)
    (hq : 2 ≤ q) (hq31 : q < 2147483648) :
    (Nat.gcd n q ≠ 1 → inverse n q = .notInvertible) ∧
    (Nat.gcd n q = 1 → ∃ v, v < q ∧ n * v % q = 1 ∧
      (inverse n q = .ok v ∨ inverse n q = .assertFail) ∧
      (n * v < 2147483648 → inverse n q = .ok v)) := by
  have hni : toInt32 n = (n : Int) := toInt32_of_lt hn31
  have hqi : toInt32 q = (q : Int) := toInt32_of_lt hq31
  obtain ⟨U, V, hloop, hbez⟩ :=
    euclidLoop_spec (n : Int) (q : Int) (q + 2) (n : Int) 1 0 (q : Int) 0 1
      (by simp) (by positivity) (by positivity) (by ring) (by ring)
  rw [Int.gcd_natCast_natCast] at hloop hbez
  have hq0 : (0 : Int) < (q : Int) := by exact_mod_cast (by omega : 0 < q)
  have hu0n : 0 ≤ U % (q : Int) := Int.emod_nonneg U (ne_of_gt hq0)
  have hu0l : U % (q : Int) < (q : Int) := Int.emod_lt_of_pos U hq0
  have hred : inverse n q =
      (if ((Nat.gcd n q : Nat) : Int) = 1 then
        if Int.tmod (wrapInt32 ((n : Int) * (U % (q : Int)))) (q : Int) = 1 then
          InvResult.ok (U % (q : Int)).toNat
        else InvResult.assertFail
      else InvResult.notInvertible) := by
    simp only [inverse, hni, hqi, Int.toNat_natCast, hloop, if_neg (not_lt.mpr hu0n)]
  constructor
  · intro hg
    rw [hred, if_neg (by exact_mod_cast hg)]
  · intro hg
    have hbez1 : (1 : Int) = (n : Int) * U + (q : Int) * V := by
      rw [← hbez, hg, Nat.cast_one]
    have hexp : (n : Int) * (U % (q : Int)) =
        1 + (q : Int) * (-V - (n : Int) * (U / (q : Int))) := by
      rw [Int.emod_def]
      linear_combination -hbez1
    have hfin : (n : Int) * (U % (q : Int)) % (q : Int) = 1 := by
      rw [hexp, Int.add_mul_emod_self_left]
      exact Int.emod_eq_of_lt (by norm_num) (by exact_mod_cast (by omega : 1 < q))
    have hvcast : (((U % (q : Int)).toNat : Nat) : Int) = U % (q : Int) :=
      Int.toNat_of_nonneg hu0n
    have hprod : ((n * (U % (q : Int)).toNat : Nat) : Int) =
        (n : Int) * (U % (q : Int)) := by
      push_cast [hvcast]
      ring
    refine ⟨(U % (q : Int)).toNat, by omega, ?_, ?_, ?_⟩
    · have : ((n * (U % (q : Int)).toNat % q : Nat) : Int) = 1 := by
        push_cast [hvcast]
        exact hfin
      exact_mod_cast this
    · rw [hred, if_pos (by rw [hg, Nat.cast_one])]
      by_cases hchk :
          Int.tmod (wrapInt32 ((n : Int) * (U % (q : Int)))) (q : Int) = 1
      · exact Or.inl (by rw [if_pos hchk])
      · exact Or.inr (by rw [if_neg hchk])
    · intro hbound
      have hnn : (0 : Int) ≤ (n : Int) * (U % (q : Int)) :=
        mul_nonneg (by positivity) hu0n
      have hwrap : wrapInt32 ((n : Int) * (U % (q : Int))) =
          (n : Int) * (U % (q : Int)) := by
        refine wrapInt32_eq_self (by omega) ?_
        rw [← hprod]
        exact_mod_cast hbound
      have hchk : Int.tmod (wrapInt32 ((n : Int) * (U % (q : Int)))) (q : Int) = 1 := by
        rw [hwrap, Int.tmod_eq_emod hnn hq0.le, hfin]
      rw [hred, if_pos (by rw [hg, Nat.cast_one]), if_pos hchk]

/-! ### Number-theoretic helpers for the root checks -/

lemma sq_mod_of_pred {q : Nat} (hq : 2 ≤ q) : (q - 1) * (q - 1) % q = 1 := by
  obtain ⟨m, rfl⟩ : ∃ m, q = m + 2 := ⟨q - 2, by omega⟩
  have h : (m + 2 - 1) * (m + 2 - 1) = (m + 2) * m + 1 := by
    have : m + 2 - 1 = m + 1 := by omega
    rw [this]; ring
  rw [h, Nat.mul_add_mod]
  exact Nat.mod_eq_of_lt (by omega)

lemma pow_two_n_mod {psi n q : Nat} (hq : 2 ≤ q) (h : psi ^ n % q = q - 1) :
    psi ^ (2 * n) % q = 1 := by
  have h2 : psi ^ (2 * n) = psi ^ n * psi ^ n := by
    rw [two_mul, pow_add]
  rw [h2, Nat.mul_mod, h, sq_mod_of_pred hq]

lemma coprime_of_pow_mod_one {psi m q : Nat} (hq : 2 ≤ q) (hm : 1 ≤ m)
    (hpsi : 1 ≤ psi) (h : psi ^ m % q = 1) : Nat.gcd psi q = 1 := by
  have hp1 : 1 ≤ psi ^ m := Nat.one_le_pow m psi (by omega)
  have hdvd : q ∣ psi ^ m - 1 := by
    have hmod : 1 % q = psi ^ m % q := by
      rw [h, Nat.mod_eq_of_lt (by omega : 1 < q)]
    exact (Nat.modEq_iff_dvd' hp1).mp hmod
  have h1 : Nat.gcd psi q ∣ psi ^ m :=
    dvd_pow (Nat.gcd_dvd_left psi q) (by omega)
  have h2 : Nat.gcd psi q ∣ psi ^ m - 1 :=
    dvd_trans (Nat.gcd_dvd_right psi q) hdvd
  have h3 : Nat.gcd psi q ∣ 1 := by
    have := Nat.dvd_sub' h1 h2
    rwa [Nat.sub_sub_self hp1] at this
  exact Nat.eq_one_of_dvd_one h3

/-! ### The geometric table -/

lemma power_table_getD {q b : Nat} (hq : 2 ≤ q) (hq16 : q < 65536) (hb : b < q) :
    ∀ n x i, x < q → i < n →
      (power_table n q x b).getD i 0 = x * b ^ i % q := by
  intro n
  induction n with
  | zero => intro x i hx hi; omega
  | succ m ih =>
    intro x i hx hi
    match i with
    | 0 =>
      simp [power_table, pow_zero, Nat.mul_one, Nat.mod_eq_of_lt hx]
    | j + 1 =>
      have hwrap : x * b % u32 = x * b :=
        Nat.mod_eq_of_lt (mul_lt_u32 (by omega) (by omega))
      have hx' : x * b % q < q := Nat.mod_lt _ (by omega)
      show (power_table m q (x * b % u32 % q) b).getD j 0 = x * b ^ (j + 1) % q
      rw [hwrap, ih (x * b % q) j hx' (by omega), mod_mul_strip]
      congr 1
      ring
/-! ### The Shoup level table -/

lemma shoupInner_spec (n q y t : Nat) :
    ∀ c j i x, i = t + j → j + c = t → t + t ≤ n →
      shoupInner n q y t c j i x =
        some ((List.range c).map
          (fun d => (t + j + d, (fun v => v * y % u32 % q)^[d] x)), t + t) := by
  intro c
  induction c with
  | zero =>
    intro j i x hi hj _
    have : i = t + t := by omega
    simp [shoupInner, this]
  | succ c ih =>
    intro j i x hi hj hn
    have hin : i < n := by omega
    have hrec := ih (j + 1) (i + 1) (x * y % u32 % q) (by omega) (by omega) hn
    rw [show shoupInner n q y t (c + 1) j i x =
          match shoupInner n q y t c (j + 1) (i + 1) (x * y % u32 % q) with
          | none => none
          | some (ws, i') => some ((i, x) :: ws, i') by
        simp only [shoupInner]
        rw [if_pos ⟨hi, hin⟩]]
    rw [hrec]
    refine congrArg some (Prod.ext ?_ rfl)
    show (i, x) :: _ = _
    rw [List.range_succ_eq_map, List.map_cons, List.map_map]
    refine congrArg₂ _ (Prod.ext (by omega) rfl) ?_
    refine List.map_congr_left ?_
    intro d _
    refine Prod.ext (by simp; omega) ?_
    show (fun v => v * y % u32 % q)^[d] (x * y % u32 % q) =
      (fun v => v * y % u32 % q)^[Nat.succ d] x
    rw [Function.iterate_succ_apply]

lemma iter_val {q y : Nat} (hq : 2 ≤ q) (hq16 : q < 65536) (hy : y < q) :
    ∀ d, (fun v => v * y % u32 % q)^[d] 1 = y ^ d % q := by
  intro d
  induction d with
  | zero =>
    simp [Nat.mod_eq_of_lt (by omega : 1 < q)]
  | succ d ih =>
    rw [Function.iterate_succ_apply', ih]
    show (y ^ d % q) * y % u32 % q = y ^ (d + 1) % q
    have hlt : y ^ d % q < q := Nat.mod_lt _ (by omega)
    rw [Nat.mod_eq_of_lt (mul_lt_u32 (by omega) (by omega)), mod_mul_strip]
    rw [pow_succ]
lemma stagesFromF_pow (k : Nat) :
    ∀ f s, k ≤ s + f →
      stagesFromF (2 ^ k) f (2 ^ s) = (List.range (k - s)).map (fun d => 2 ^ (s + d)) := by
  intro f
  induction f with
  | zero =>
    intro s h
    have hks : k - s = 0 := by omega
    simp [stagesFromF, hks]
  | succ f ih =>
    intro s h
    by_cases hs : s < k
    · have hlt : (2:Nat) ^ s < 2 ^ k := Nat.pow_lt_pow_right (by omega) hs
      have h2 : 2 * 2 ^ s = 2 ^ (s + 1) := by rw [pow_succ]; ring
      rw [show stagesFromF (2^k) (f+1) (2^s) = 2^s :: stagesFromF (2^k) f (2*2^s) by
            simp [stagesFromF, hlt]]
      rw [h2, ih (s+1) (by omega)]
      have hk : k - s = (k - (s+1)) + 1 := by omega
      rw [hk, List.range_succ_eq_map, List.map_cons, List.map_map]
      refine congrArg₂ _ (by norm_num) (List.map_congr_left ?_)
      intro d _
      show 2 ^ (s + 1 + d) = 2 ^ (s + Nat.succ d)
      congr 1
      omega
    · have hge : ¬ ((2:Nat) ^ s < 2 ^ k) := by
        have := Nat.pow_le_pow_right (show 0 < 2 by omega) (show k ≤ s by omega)
        omega
      have hks : k - s = 0 := by omega
      simp [stagesFromF, hge, hks]

lemma shoupStages_spec (n q phi k : Nat) (hn : n = 2 ^ k) :
    ∀ m s, s + m = k →
      ∃ ws, shoupStages n q phi ((List.range m).map (fun d => 2 ^ (s + d))) (2 ^ s) =
          some ws ∧
        ws.map Prod.fst = List.range' (2 ^ s) (n - 2 ^ s) ∧
        ∀ s' j, s ≤ s' → 2 ^ s' < n → j < 2 ^ s' →
          (2 ^ s' + j,
            (fun v => v * power phi (n / (2 * 2 ^ s')) q % u32 % q)^[j] 1) ∈ ws := by
  intro m
  induction m with
  | zero =>
    intro s hs
    refine ⟨[], by simp [shoupStages], ?_, ?_⟩
    · subst hn
      have hks : (2:Nat) ^ k ≤ 2 ^ s := Nat.pow_le_pow_right (by omega) (by omega)
      have hz : 2 ^ k - 2 ^ s = 0 := by omega
      simp [hz]
    · intro s' j hs' h2 hj
      exfalso
      have : (2:Nat) ^ k ≤ 2 ^ s' := Nat.pow_le_pow_right (by omega) (by omega)
      subst hn
      omega
  | succ m ih =>
    intro s hs
    have hlist : (List.range (m+1)).map (fun d => 2^(s+d)) =
        2^s :: (List.range m).map (fun d => 2^(s+1+d)) := by
      rw [List.range_succ_eq_map, List.map_cons, List.map_map]
      refine congrArg₂ _ (by norm_num) (List.map_congr_left ?_)
      intro d _
      show 2 ^ (s + Nat.succ d) = 2 ^ (s+1+d)
      congr 1
      omega
    have h2s : (2:Nat)^s + 2^s = 2^(s+1) := by rw [pow_succ]; ring
    have hts : 2^s + 2^s ≤ n := by
      subst hn
      have : (2:Nat)^(s+1) ≤ 2^k := Nat.pow_le_pow_right (by omega) (by omega)
      omega
    have hinner := shoupInner_spec n q (power phi (n / (2 * 2^s)) q) (2^s)
        (2^s) 0 (2^s) 1 (by omega) (by omega) hts
    obtain ⟨ws', hws', hmap', hmem'⟩ := ih (s+1) (by omega)
    have hstep : ∀ (ts : List Nat) (i : Nat), shoupStages n q phi (2^s :: ts) i =
        match shoupInner n q (power phi (n / (2 * 2^s)) q) (2^s) (2^s) 0 i 1 with
        | none => none
        | some (ws0, i') =>
          match shoupStages n q phi ts i' with
          | none => none
          | some ws1 => some (ws0 ++ ws1) := by
      intro ts i
      simp only [shoupStages]
    refine ⟨(List.range (2^s)).map
        (fun d => (2^s + 0 + d,
          (fun v => v * power phi (n / (2 * 2^s)) q % u32 % q)^[d] 1)) ++ ws',
      ?_, ?_, ?_⟩
    · rw [hlist]
      have hstep2 : shoupStages n q phi
          (2 ^ s :: (List.range m).map (fun d => 2 ^ (s+1+d))) (2 ^ s) =
          match shoupStages n q phi ((List.range m).map (fun d => 2 ^ (s+1+d)))
              (2 ^ s + 2 ^ s) with
          | none => none
          | some ws1 => some ((List.range (2^s)).map
              (fun d => (2^s + 0 + d,
                (fun v => v * power phi (n / (2 * 2^s)) q % u32 % q)^[d] 1)) ++ ws1) := by
        rw [hstep, hinner]
      rw [hstep2, h2s, hws']
    · have hbfst : ((List.range (2^s)).map
          (fun d => (2^s + 0 + d,
            (fun v => v * power phi (n / (2 * 2^s)) q % u32 % q)^[d] 1))).map Prod.fst
          = List.range' (2^s) (2^s) := by
        rw [List.map_map, List.range'_eq_map_range]
        refine List.map_congr_left ?_
        intro d _
        show 2^s + 0 + d = 2^s + d
        omega
      rw [List.map_append, hbfst, hmap']
      have hsplit : (2:Nat)^(s+1) = 2^s + 1 * 2^s := by omega
      rw [hsplit, List.range'_append]
      congr 1
      omega
    · intro s' j hs' h2 hj
      by_cases hcase : s' = s
      · subst hcase
        refine List.mem_append.mpr (Or.inl ?_)
        refine List.mem_map.mpr ⟨j, List.mem_range.mpr hj, ?_⟩
        refine Prod.ext (by omega) rfl
      · exact List.mem_append.mpr (Or.inr (hmem' s' j (by omega) h2 hj))
lemma foldl_set_length :
    ∀ (ws : List (Nat × Nat)) (a : List Nat),
      (ws.foldl (fun a p => a.set p.1 p.2) a).length = a.length := by
  intro ws
  induction ws with
  | nil => intro a; rfl
  | cons p tl ih =>
    intro a
    rw [List.foldl_cons, ih, List.length_set]

lemma foldl_set_not_mem :
    ∀ (ws : List (Nat × Nat)) (a : List Nat) (idx : Nat),
      idx ∉ ws.map Prod.fst →
      (ws.foldl (fun a p => a.set p.1 p.2) a)[idx]? = a[idx]? := by
  intro ws
  induction ws with
  | nil => intro a idx _; rfl
  | cons p tl ih =>
    intro a idx hmem
    rw [List.map_cons, List.mem_cons] at hmem
    push_neg at hmem
    rw [List.foldl_cons, ih _ idx hmem.2, List.getElem?_set_ne (Ne.symm hmem.1)]

lemma foldl_set_mem :
    ∀ (ws : List (Nat × Nat)) (a : List Nat) (idx v : Nat),
      (ws.map Prod.fst).Nodup → (idx, v) ∈ ws → idx < a.length →
      (ws.foldl (fun a p => a.set p.1 p.2) a)[idx]? = some v := by
  intro ws
  induction ws with
  | nil => intro a idx v _ hmem _; exact absurd hmem (List.not_mem_nil _)
  | cons p tl ih =>
    intro a idx v hnd hmem hlen
    rw [List.map_cons, List.nodup_cons] at hnd
    rcases List.mem_cons.mp hmem with heq | htl
    · have hidx : p.1 = idx := by rw [← heq]
      have hv : p.2 = v := by rw [← heq]
      have hnm : idx ∉ tl.map Prod.fst := hidx ▸ hnd.1
      rw [List.foldl_cons, foldl_set_not_mem tl _ idx hnm, hidx,
        List.getElem?_set_self (by omega), hv]
    · rw [List.foldl_cons]
      exact ih _ idx v hnd.2 htl (by rw [List.length_set]; omega)

lemma buildShoupWrites_spec (n q phi k : Nat) (hk : 1 ≤ k) (hn : n = 2 ^ k) :
    ∃ ws, buildShoupWrites n q phi = some ((0, 0) :: ws) ∧
      ((0, 0) :: ws).map Prod.fst = List.range n ∧
      ∀ s j, 2 ^ s < n → j < 2 ^ s →
        (2 ^ s + j,
          (fun v => v * power phi (n / (2 * 2 ^ s)) q % u32 % q)^[j] 1) ∈ ws := by
  obtain ⟨ws, hws, hmap, hmem⟩ := shoupStages_spec n q phi k hn k 0 (by omega)
  have hsz : stageSizes n = (List.range k).map (fun d => 2 ^ d) := by
    rw [stageSizes, hn]
    have hkf : k ≤ 0 + 2 ^ k := by
      have := Nat.lt_two_pow k
      omega
    have := stagesFromF_pow k (2 ^ k) 0 hkf
    simpa using this
  have hws2 : shoupStages n q phi ((List.range k).map (fun d => 2 ^ d)) 1 = some ws := by
    simpa using hws
  have hmap2 : ws.map Prod.fst = List.range' 1 (n - 1) := by
    simpa using hmap
  refine ⟨ws, ?_, ?_, ?_⟩
  · rw [buildShoupWrites, hsz, hws2]
    rfl
  · rw [List.map_cons, hmap2]
    have hn1 : 0 < n := by
      subst hn
      exact pow_pos (by omega) k
    rw [List.range_eq_range']
    rw [show n = (n - 1) + 1 by omega, List.range'_succ]
    simp
  · intro s j h2 hj
    exact hmem s j (by omega) h2 hj

lemma build_shoup_table_spec (n q phi k : Nat) (hk : 1 ≤ k) (hn : n = 2 ^ k)
    (hq : 2 ≤ q) (hq16 : q < 65536) (hphi : phi < q) :
    ∃ tbl, build_shoup_table n q phi = some tbl ∧ tbl.length = n ∧
      tbl.getD 0 0 = 0 ∧
      ∀ s j, 2 ^ s < n → j < 2 ^ s →
        tbl.getD (2 ^ s + j) 0 = (phi ^ (n / (2 * 2 ^ s)) % q) ^ j % q := by
  obtain ⟨ws, hws, hcov, hmem⟩ := buildShoupWrites_spec n q phi k hk hn
  have hlen0 : (List.replicate n 0).length = n := List.length_replicate n 0
  have hnd : (((0, 0) :: ws).map Prod.fst).Nodup := by
    rw [hcov]
    exact List.nodup_range n
  have hn2 : 2 ≤ n := by
    subst hn
    calc 2 = 2 ^ 1 := by norm_num
    _ ≤ 2 ^ k := Nat.pow_le_pow_right (by omega) hk
  refine ⟨((0, 0) :: ws).foldl (fun a p => a.set p.1 p.2) (List.replicate n 0),
    ?_, ?_, ?_, ?_⟩
  · rw [build_shoup_table, hws]
    rfl
  · rw [foldl_set_length, hlen0]
  · have h0 : (((0, 0) :: ws).foldl (fun a p => a.set p.1 p.2)
        (List.replicate n 0))[0]? = some 0 :=
      foldl_set_mem _ _ 0 0 hnd (List.mem_cons_self _ _) (by omega)
    rw [List.getD_eq_getElem?_getD, h0]
    rfl
  · intro s j h2 hj
    have hsk : s < k := by
      subst hn
      exact (Nat.pow_lt_pow_iff_right (by omega)).mp h2
    have hidx : 2 ^ s + j < n := by
      have h1 : (2:Nat) ^ (s + 1) ≤ 2 ^ k := Nat.pow_le_pow_right (by omega) (by omega)
      have h2' : (2:Nat) ^ (s + 1) = 2 ^ s + 2 ^ s := by rw [pow_succ]; ring
      subst hn
      omega
    have hy : power phi (n / (2 * 2 ^ s)) q = phi ^ (n / (2 * 2 ^ s)) % q :=
      power_correct _ hq hq16 (by omega)
    have hyl : phi ^ (n / (2 * 2 ^ s)) % q < q := Nat.mod_lt _ (by omega)
    have hval : (fun v => v * power phi (n / (2 * 2 ^ s)) q % u32 % q)^[j] 1 =
        (phi ^ (n / (2 * 2 ^ s)) % q) ^ j % q := by
      rw [hy]
      exact iter_val hq hq16 hyl j
    have hfound : (((0, 0) :: ws).foldl (fun a p => a.set p.1 p.2)
        (List.replicate n 0))[2 ^ s + j]? =
        some ((fun v => v * power phi (n / (2 * 2 ^ s)) q % u32 % q)^[j] 1) :=
      foldl_set_mem _ _ _ _ hnd (List.mem_cons_of_mem _ (hmem s j h2 hj)) (by omega)
    rw [List.getD_eq_getElem?_getD, hfound, hval]
    rfl
/-! ### The command-line tools -/

lemma runPsiTool_ok_valid (a1 a2 a3 : Int) (ts : List (List Nat))
    (h : runPsiTool a1 a2 a3 = .ok ts) : validPsiArgs a1 a2 a3 := by
  simp only [runPsiTool] at h
  by_cases h1 : a1 ≤ 1
  · rw [if_pos h1] at h; simp at h
  rw [if_neg h1] at h
  by_cases h2 : (65535 : Int) ≤ a1
  · rw [if_pos h2] at h; simp at h
  rw [if_neg h2] at h
  by_cases h3 : a2 ≤ 1
  · rw [if_pos h3] at h; simp at h
  rw [if_neg h3] at h
  by_cases h4 : (100000 : Int) ≤ a2
  · rw [if_pos h4] at h; simp at h
  rw [if_neg h4] at h
  by_cases h5 : a3 ≤ 1 ∨ (a1.toNat : Int) ≤ a3
  · rw [if_pos h5] at h; simp at h
  rw [if_neg h5] at h
  push_neg at h5
  by_cases h6 : power a3.toNat a2.toNat a1.toNat ≠ a1.toNat - 1
  · rw [if_pos h6] at h; simp at h
  rw [if_neg h6] at h
  push_neg at h6
  by_cases h7 : power (a3.toNat * a3.toNat % u32 % a1.toNat) a2.toNat a1.toNat ≠ 1
  · rw [if_pos h7] at h; simp at h
  rw [if_neg h7] at h
  by_cases h8 : ∃ i, i < a2.toNat ∧ 1 ≤ i ∧ power a3.toNat i a1.toNat = 1
  · rw [if_pos h8] at h; simp at h
  rw [if_neg h8] at h
  push_neg at h8
  have hq2 : 2 ≤ a1.toNat := by omega
  have hq16 : a1.toNat < 65535 := by omega
  have hn2 : 2 ≤ a2.toNat := by omega
  have hn5 : a2.toNat < 100000 := by omega
  have hpsi2 : 2 ≤ a3.toNat := by omega
  have hpsiq : a3.toNat < a1.toNat := by omega
  have hroot : a3.toNat ^ a2.toNat % a1.toNat = a1.toNat - 1 := by
    rw [← power_correct a2.toNat hq2 (by omega) (by omega)]
    exact h6
  have hprim : ∀ i, i < a2.toNat → 1 ≤ i → a3.toNat ^ i % a1.toNat ≠ 1 := by
    intro i hi h1i
    rw [← power_correct i hq2 (by omega) (by omega)]
    exact h8 i hi h1i
  rcases hin : inverse a2.toNat a1.toNat with v | _ | _
  rotate_left
  · rw [hin] at h; simp at h
  · rw [hin] at h; simp at h
  rw [hin] at h
  rcases hinp : inverse a3.toNat a1.toNat with w | _ | _
  rotate_left
  · rw [hinp] at h; simp at h
  · rw [hinp] at h; simp at h
  have hgn : Nat.gcd a2.toNat a1.toNat = 1 := by
    by_contra hg
    have := (inverse_spec a2.toNat a1.toNat (by omega) (by omega) hq2 (by omega)).1 hg
    rw [hin] at this
    simp at this
  have hgp : Nat.gcd a3.toNat a1.toNat = 1 := by
    by_contra hg
    have := (inverse_spec a3.toNat a1.toNat (by omega) (by omega) hq2 (by omega)).1 hg
    rw [hinp] at this
    simp at this
  exact ⟨by omega, by omega, by omega, by omega, by omega, by omega,
    hroot, hprim, hgn, hgp⟩

lemma runShoupTool_ok_valid (a1 a2 a3 : Int) (ts : List (List Nat))
    (h : runShoupTool a1 a2 a3 = .ok ts) : validShoupArgs a1 a2 a3 := by
  simp only [runShoupTool] at h
  by_cases h1 : a1 ≤ 1
  · rw [if_pos h1] at h; simp at h
  rw [if_neg h1] at h
  by_cases h2 : (65535 : Int) ≤ a1
  · rw [if_pos h2] at h; simp at h
  rw [if_neg h2] at h
  by_cases h3 : a2 ≤ 1
  · rw [if_pos h3] at h; simp at h
  rw [if_neg h3] at h
  by_cases h4 : (100000 : Int) ≤ a2
  · rw [if_pos h4] at h; simp at h
  rw [if_neg h4] at h
  by_cases h5 : a3 ≤ 1 ∨ (a1.toNat : Int) ≤ a3
  · rw [if_pos h5] at h; simp at h
  rw [if_neg h5] at h
  push_neg at h5
  by_cases h6 : power a3.toNat a2.toNat a1.toNat ≠ a1.toNat - 1
  · rw [if_pos h6] at h; simp at h
  rw [if_neg h6] at h
  push_neg at h6
  by_cases h7 : power (a3.toNat * a3.toNat % u32 % a1.toNat) a2.toNat a1.toNat ≠ 1
  · rw [if_pos h7] at h; simp at h
  rw [if_neg h7] at h
  by_cases h8 : ∃ i, i < a2.toNat ∧ 1 ≤ i ∧ power a3.toNat i a1.toNat = 1
  · rw [if_pos h8] at h; simp at h
  rw [if_neg h8] at h
  push_neg at h8
  have hq2 : 2 ≤ a1.toNat := by omega
  have hroot : a3.toNat ^ a2.toNat % a1.toNat = a1.toNat - 1 := by
    rw [← power_correct a2.toNat hq2 (by omega) (by omega)]
    exact h6
  have hprim : ∀ i, i < a2.toNat → 1 ≤ i → a3.toNat ^ i % a1.toNat ≠ 1 := by
    intro i hi h1i
    rw [← power_correct i hq2 (by omega) (by omega)]
    exact h8 i hi h1i
  rcases hin : inverse a2.toNat a1.toNat with v | _ | _
  rotate_left
  · rw [hin] at h; simp at h
  · rw [hin] at h; simp at h
  have hgn : Nat.gcd a2.toNat a1.toNat = 1 := by
    by_contra hg
    have := (inverse_spec a2.toNat a1.toNat (by omega) (by omega) hq2 (by omega)).1 hg
    rw [hin] at this
    simp at this
  exact ⟨by omega, by omega, by omega, by omega, by omega, by omega,
    hroot, hprim, hgn⟩
lemma mul_mod_strip_right (q a b : Nat) : a * (b % q) % q = a * b % q := by
  rw [Nat.mul_mod, Nat.mod_mod_of_dvd b dvd_rfl, ← Nat.mul_mod]

/-! ### Claims -/

/-- C1, counterexample to the claim as stated: with `n = 8`, `q = 131073` and
`phi = 131072` (a modulus just above `2^16`, where the `uint32_t` products in
`power` wrap), the level table's entry at index `t + j = 2 + 1` is `0`, while
the claimed value `y^j mod q` with `y = phi^(n/(2t)) mod q` is `1`. -/
theorem c1_counterexample :
    (2:Nat) ≤ 131073 ∧ (8:Nat) = 2 ^ 3 ∧ (131072:Nat) < 131073 ∧
    (build_shoup_table 8 131073 131072).map (fun tbl => tbl.getD (2 + 1) 0) = some 0 ∧
    (131072 ^ (8 / (2 * 2)) % 131073) ^ 1 % 131073 = 1 := by
  decide

/-- C1 (amended with the spec's modulus bound `q < 2^16`): for every power of
two `n = 2^k >= 2`, modulus `2 <= q < 2^16` and `phi < q`, the level table
built by `build_shoup_table` exists (all cursor asserts hold) and its entry at
index `t + j`, for every stage size `t = 2^s < n` and `j < t`, is
`y^j mod q` where `y = phi^(n/(2t)) mod q`; within each stage the values are
produced starting from `1` by repeated multiplication by `y` (this is the
definition of the inner loop). -/
theorem c1_level_table (n q phi k : Nat) (hk : 1 ≤ k) (hn : n = 2 ^ k)
    (hq : 2 ≤ q) (hq16 : q < 65536) (hphi : phi < q) :
    ∃ tbl, build_shoup_table n q phi = some tbl ∧ tbl.length = n ∧
      ∀ t j, (∃ s, t = 2 ^ s) → t < n → j < t →
        tbl.getD (t + j) 0 = (phi ^ (n / (2 * t)) % q) ^ j % q := by
  obtain ⟨tbl, h1, h2, _, h4⟩ := build_shoup_table_spec n q phi k hk hn hq hq16 hphi
  refine ⟨tbl, h1, h2, ?_⟩
  rintro t j ⟨s, rfl⟩ ht hj
  exact h4 s j ht hj

/-- C1 witness: the amended theorem applied at `n = 4`, `q = 17`, `phi = 9`. -/
theorem c1_level_table_witness :
    (1 ≤ 2 ∧ (4:Nat) = 2 ^ 2 ∧ (2:Nat) ≤ 17 ∧ (17:Nat) < 65536 ∧ (9:Nat) < 17) ∧
    (∃ tbl, build_shoup_table 4 17 9 = some tbl ∧ tbl.length = 4 ∧
      ∀ t j, (∃ s, t = 2 ^ s) → t < 4 → j < t →
        tbl.getD (t + j) 0 = (9 ^ (4 / (2 * t)) % 17) ^ j % 17) :=
  ⟨by decide,
   c1_level_table 4 17 9 2 (by decide) (by decide) (by decide) (by decide) (by decide)⟩

/-- C2: for every power of two `n = 2^k >= 2` (and any modulus `q >= 2` and any
`phi`), the Level Table Builder's write trace exists (so the asserts
`i == t + j` and `i < n` held at every write: the cursor equals `t + j`
throughout), the first write is index `0` with value `0`, and the indices
written are exactly `0, 1, ..., n-1` in order — in particular every index in
`{1, ..., n-1}` is written exactly once and no index outside `[0, n)` is
written. -/
theorem c2_index_coverage (n q phi k : Nat) (hk : 1 ≤ k) (hn : n = 2 ^ k)
    (hq : 2 ≤ q) :
    ∃ ws, buildShoupWrites n q phi = some ((0, 0) :: ws) ∧
      ((0, 0) :: ws).map Prod.fst = List.range n ∧
      ((0, 0) :: ws).head? = some (0, 0) := by
  obtain ⟨ws, h1, h2, _⟩ := buildShoupWrites_spec n q phi k hk hn
  exact ⟨ws, h1, h2, rfl⟩

/-- C2 witness: the theorem applied at `n = 8`, `q = 17`, `phi = 3`. -/
theorem c2_index_coverage_witness :
    (1 ≤ 3 ∧ (8:Nat) = 2 ^ 3 ∧ (2:Nat) ≤ 17) ∧
    (∃ ws, buildShoupWrites 8 17 3 = some ((0, 0) :: ws) ∧
      ((0, 0) :: ws).map Prod.fst = List.range 8 ∧
      ((0, 0) :: ws).head? = some (0, 0)) :=
  ⟨by decide, c2_index_coverage 8 17 3 3 (by decide) (by decide) (by decide)⟩

/-- C3, counterexample to the claim as stated, at two inputs.  First, for
`q = 2147483651 >= 2^31` the initialisation `r2 = q` stores a negative
`int32_t`, the loop exits at once and `inverse` reports not-invertible
although `gcd(3, q) = 1`.  Second, even inside the `int32_t`-safe range, at
`n = 65520`, `q = 65521` (coprime, so the claim demands success) the final
debug assert computes the 32-bit product `n * u1 = 65520^2`, which wraps to
`-2096896`; its truncated remainder modulo `q` is `-224`, not `1`, so the
program aborts on the assert instead of returning the inverse. -/
theorem c3_counterexample :
    ((2:Nat) ≤ 2147483651 ∧ (1:Nat) ≤ 3 ∧ (3:Nat) < 2147483651 ∧
      Nat.gcd 3 2147483651 = 1 ∧
      inverse 3 2147483651 = InvResult.notInvertible) ∧
    ((2:Nat) ≤ 65521 ∧ (1:Nat) ≤ 65520 ∧ (65520:Nat) < 65521 ∧
      Nat.gcd 65520 65521 = 1 ∧
      inverse 65520 65521 = InvResult.assertFail) := by
  decide

/-- C3 (amended): for every `2 <= q < 2^31` (so the `uint32_t → int32_t`
initialisation is value-preserving) and `1 <= n < q`: if `gcd(n, q) != 1`
then `inverse` reports the recoverable not-invertible outcome (distinct from
an assert failure); if `gcd(n, q) = 1` and moreover `q <= 46341` (so the
final debug assert's 32-bit product `n * u1 <= (q-1)^2` cannot overflow),
then `inverse` succeeds with a value `v ∈ [0, q)` such that
`(n * v) mod q = 1`. -/
theorem c3_inverse_correct (n q : Nat) (hq : 2 ≤ q) (hq31 : q < 2147483648)
    (hn : 1 ≤ n) (hnq : n < q) :
    (Nat.gcd n q ≠ 1 → inverse n q = InvResult.notInvertible) ∧
    (Nat.gcd n q = 1 → q ≤ 46341 →
      ∃ v, inverse n q = InvResult.ok v ∧ v < q ∧ n * v % q = 1) := by
  have hspec := inverse_spec n q hn (by omega) hq hq31
  refine ⟨hspec.1, ?_⟩
  intro hg hq46
  obtain ⟨v, hvq, hmul, _, hok⟩ := hspec.2 hg
  refine ⟨v, hok ?_, hvq, hmul⟩
  calc n * v ≤ 46340 * 46340 := Nat.mul_le_mul (by omega) (by omega)
  _ < 2147483648 := by norm_num

/-- C3 witness: the amended theorem applied at `n = 4`, `q = 17`. -/
theorem c3_inverse_correct_witness :
    ((2:Nat) ≤ 17 ∧ (17:Nat) < 2147483648 ∧ (1:Nat) ≤ 4 ∧ (4:Nat) < 17) ∧
    ((Nat.gcd 4 17 ≠ 1 → inverse 4 17 = InvResult.notInvertible) ∧
      (Nat.gcd 4 17 = 1 → 17 ≤ 46341 →
        ∃ v, inverse 4 17 = InvResult.ok v ∧ v < 17 ∧ 4 * v % 17 = 1)) :=
  ⟨by decide, c3_inverse_correct 4 17 (by decide) (by decide) (by decide) (by decide)⟩

/-- C4, counterexample to the claim as stated: at `q = 131073 > 2^16` with
`x0 = b = 131072 ∈ [0, q)` and `n = 2`, the table's entry `1` is `0` (the
`uint32_t` product `x0 * b` wrapped), while direct exponentiation gives
`x0 * b^1 mod q = 1`. -/
theorem c4_counterexample :
    (1:Nat) ≤ 2 ∧ (2:Nat) ≤ 131073 ∧ (131072:Nat) < 131073 ∧
    (power_table 2 131073 131072 131072).getD 1 0 = 0 ∧
    131072 * 131072 ^ 1 % 131073 = 1 := by
  decide

/-- C4 (amended with the spec's modulus bound `q < 2^16`): for every `n >= 1`,
`2 <= q < 2^16`, `x0 ∈ [0, q)` and `b ∈ [0, q)`, the iteratively computed
geometric table agrees with direct exponentiation, `a[i] = x0 * b^i mod q`
for all `i < n`; in particular for every valid `(q, n, psi)` triple the
forward table entry `i` equals `power(psi, i, q)`. -/
theorem c4_geometric_table (n q x0 b psi : Nat) (hn : 1 ≤ n) (hq : 2 ≤ q)
    (hq16 : q < 65536) (hx : x0 < q) (hb : b < q) :
    (∀ i, i < n → (power_table n q x0 b).getD i 0 = x0 * b ^ i % q) ∧
    (validTriple q n psi → ∀ i, i < n →
      (power_table n q 1 psi).getD i 0 = power psi i q) := by
  constructor
  · intro i hi
    exact power_table_getD hq hq16 hb n x0 i hx hi
  · rintro ⟨hq2, hq16', hn2, hn5, hpsi2, hpsiq, _, _, _, _⟩ i hi
    rw [power_table_getD hq2 (by omega) hpsiq n 1 i (by omega) hi, one_mul,
      power_correct i hq2 (by omega) (by omega)]

/-- C4 witness: the amended theorem applied at `n = 4`, `q = 17`, `x0 = 5`,
`b = 3`, `psi = 2` (a valid triple). -/
theorem c4_geometric_table_witness :
    ((1:Nat) ≤ 4 ∧ (2:Nat) ≤ 17 ∧ (17:Nat) < 65536 ∧ (5:Nat) < 17 ∧ (3:Nat) < 17) ∧
    ((∀ i, i < 4 → (power_table 4 17 5 3).getD i 0 = 5 * 3 ^ i % 17) ∧
      (validTriple 17 4 2 → ∀ i, i < 4 →
        (power_table 4 17 1 2).getD i 0 = power 2 i 17)) :=
  ⟨by decide,
   c4_geometric_table 4 17 5 3 2 (by decide) (by decide) (by decide) (by decide)
     (by decide)⟩

/-- C5, counterexample to the claim as stated: `power` does not return
`x^k mod q` for every unsigned `x` and every `q > 0`: at `x = 2^16` the first
squaring `x*x` wraps modulo `2^32` (`power(65536, 2, 3) = 0` though
`65536^2 mod 3 = 1`), and at `q = 1`, `k = 0` the function returns the
unreduced `1` though `x^0 mod 1 = 0`. -/
theorem c5_counterexample :
    (power 65536 2 3 = 0 ∧ 65536 ^ 2 % 3 = 1) ∧
    (power 5 0 1 = 1 ∧ 5 ^ 0 % 1 = 0) := by
  decide

/-- C5 (amended with `2 <= q < 2^16` and `x < 2^16`, the headroom the design
actually provides): `power(x, k, q)` returns `x^k mod q` for every `k`
(including `k = 0`, which yields `1`), with all intermediate `uint32_t`
products below `2^32`. -/
theorem c5_power_correct (x k q : Nat) (hq2 : 2 ≤ q) (hq : q < 65536)
    (hx : x < 65536) : power x k q = x ^ k % q :=
  power_correct k hq2 hq hx

/-- C5 witness: the amended theorem applied at `x = 7`, `k = 5`, `q = 13`. -/
theorem c5_power_correct_witness :
    ((2:Nat) ≤ 13 ∧ (13:Nat) < 65536 ∧ (7:Nat) < 65536) ∧
    power 7 5 13 = 7 ^ 5 % 13 :=
  ⟨by decide, c5_power_correct 7 5 13 (by decide) (by decide) (by decide)⟩

/-- C6: for every `1 <= n < 100000` and `2 <= q < 2^16` (the ranges the tools
accept), the extended-Euclid loop started from `r1 = n, u1 = 1, v1 = 0,
r2 = q, u2 = 0, v2 = 1` — with the asserted Bezout invariants
`r1 = n*u1 + q*v1`, `r2 = n*u2 + q*v2` and `r1 >= 0` checked at the top of
every iteration — returns successfully (so no assert ever fails), and at loop
exit the final remainder `r1` equals `gcd(n, q)`, still with Bezout
certificate. -/
theorem c6_bezout_invariant (n q : Nat) (hn1 : 1 ≤ n) (hn : n < 100000)
    (hq2 : 2 ≤ q) (hq : q < 65536) :
    ∃ u v, euclidLoop (toInt32 n) (toInt32 q) ((toInt32 q).toNat + 2)
        (toInt32 n) 1 0 (toInt32 q) 0 1 =
        some (((Nat.gcd n q : Nat) : Int), u, v) ∧
      ((Nat.gcd n q : Nat) : Int) = toInt32 n * u + toInt32 q * v := by
  have hni : toInt32 n = (n : Int) := toInt32_of_lt (by omega)
  have hqi : toInt32 q = (q : Int) := toInt32_of_lt (by omega)
  rw [hni, hqi, Int.toNat_natCast]
  obtain ⟨U, V, hloop, hbez⟩ :=
    euclidLoop_spec (n : Int) (q : Int) (q + 2) (n : Int) 1 0 (q : Int) 0 1
      (by simp) (by positivity) (by positivity) (by ring) (by ring)
  rw [Int.gcd_natCast_natCast] at hloop hbez
  exact ⟨U, V, hloop, hbez⟩

/-- C6 witness: the theorem applied at `n = 4`, `q = 17` (`gcd = 1`). -/
theorem c6_bezout_invariant_witness :
    ((1:Nat) ≤ 4 ∧ (4:Nat) < 100000 ∧ (2:Nat) ≤ 17 ∧ (17:Nat) < 65536) ∧
    (∃ u v, euclidLoop (toInt32 4) (toInt32 17) ((toInt32 17).toNat + 2)
        (toInt32 4) 1 0 (toInt32 17) 0 1 =
        some (((Nat.gcd 4 17 : Nat) : Int), u, v) ∧
      ((Nat.gcd 4 17 : Nat) : Int) = toInt32 4 * u + toInt32 17 * v) :=
  ⟨by decide, c6_bezout_invariant 4 17 (by decide) (by decide) (by decide) (by decide)⟩

/-- C7, counterexample to the claim as stated: the triple `(q, n, psi) =
(65497, 6, 51794)` passes every validator check, but `psi^(-1) mod q = 60397`
and the 32-bit product `psi * 60397 = 3128202218` in the final debug assert of
`inverse(psi, q)` wraps to `-1166765078`, whose truncated remainder `-1520`
is not `1` — `inverse` aborts on the assert instead of delivering the seed of
the inverse power table, so the claimed round trip never happens for this
valid triple. -/
theorem c7_counterexample :
    validTriple 65497 6 51794 ∧ inverse 51794 65497 = InvResult.assertFail := by
  decide

/-- C7 (amended): for every valid `(q, n, psi)` triple for which
`inverse(psi, q)` returns normally with a value `v` (instead of aborting on
its overflow-prone final debug assert), the round trip holds: both table
entries at `i = 0` equal `1`, and for every `i != 0` below `n`,
`(psi_power[i] * inv_psi_power[i]) mod q = 1`. -/
theorem c7_round_trip (q n psi v : Nat) (h : validTriple q n psi)
    (hv : inverse psi q = InvResult.ok v) :
    (power_table n q 1 psi).getD 0 0 = 1 ∧
    (power_table n q 1 v).getD 0 0 = 1 ∧
    ∀ i, i < n → i ≠ 0 →
      (power_table n q 1 psi).getD i 0 * (power_table n q 1 v).getD i 0 % q = 1 := by
  obtain ⟨hq2, hq16, hn2, hn5, hpsi2, hpsiq, hroot, hprim, hgn, hgp⟩ := h
  obtain ⟨v', hvq', hmul', hdisj, _⟩ :=
    (inverse_spec psi q (by omega) (by omega) hq2 (by omega)).2 hgp
  have hveq : v' = v := by
    rcases hdisj with hok | hfail
    · exact (InvResult.ok.injEq v' v).mp (hok.symm.trans hv)
    · exact absurd (hfail.symm.trans hv) (by simp)
  subst hveq
  have hvq : v' < q := hvq'
  have hmul : psi * v' % q = 1 := hmul'
  have hone : 1 % q = 1 := Nat.mod_eq_of_lt (by omega)
  refine ⟨?_, ?_, ?_⟩
  · rw [power_table_getD hq2 (by omega) hpsiq n 1 0 (by omega) (by omega)]
    simpa using hone
  · rw [power_table_getD hq2 (by omega) hvq n 1 0 (by omega) (by omega)]
    simpa using hone
  · intro i hi hi0
    rw [power_table_getD hq2 (by omega) hpsiq n 1 i (by omega) hi,
      power_table_getD hq2 (by omega) hvq n 1 i (by omega) hi, one_mul, one_mul]
    calc psi ^ i % q * (v' ^ i % q) % q
        = psi ^ i * (v' ^ i % q) % q := mod_mul_strip q (psi ^ i) (v' ^ i % q)
      _ = psi ^ i * v' ^ i % q := mul_mod_strip_right q (psi ^ i) (v' ^ i)
      _ = (psi * v') ^ i % q := by rw [mul_pow]
      _ = (psi * v' % q) ^ i % q := by rw [← Nat.pow_mod]
      _ = 1 := by rw [hmul, one_pow, hone]

/-- C7 witness: the amended theorem applied at the valid triple `q = 17`,
`n = 4`, `psi = 2`, whose inverse is `9`. -/
theorem c7_round_trip_witness :
    (validTriple 17 4 2 ∧ inverse 2 17 = InvResult.ok 9) ∧
    ((power_table 4 17 1 2).getD 0 0 = 1 ∧
      (power_table 4 17 1 9).getD 0 0 = 1 ∧
      ∀ i, i < 4 → i ≠ 0 →
        (power_table 4 17 1 2).getD i 0 * (power_table 4 17 1 9).getD i 0 % 17 = 1) :=
  ⟨⟨by decide, by decide⟩, c7_round_trip 17 4 2 9 (by decide) (by decide)⟩

/-- C8, counterexample to the claim as stated: at `q = 131073 > 2^16`,
`psi = 131072`, `n = 1`, check 1 passes (`power(psi, n, q) = q - 1`, and indeed
`psi ≡ -1 (mod q)` mathematically), but `phi = (psi * psi) mod 2^32 mod q = 0`
because the `uint32_t` square wrapped, and the safety assertion's value
`power(phi, n, q)` is `0`, not `1` — the assertion fails. -/
theorem c8_counterexample :
    (2:Nat) ≤ 131073 ∧ (2:Nat) ≤ 131072 ∧ (131072:Nat) < 131073 ∧ (1:Nat) ≤ 1 ∧
    power 131072 1 131073 = 131073 - 1 ∧
    power (131072 * 131072 % u32 % 131073) 1 131073 = 0 := by
  decide

/-- C8 (amended with the spec's modulus bound `q < 2^16`): for every
`2 <= q < 2^16`, `psi ∈ [2, q)` and `n >= 1`, if check 1 passes
(`power(psi, n, q) = q - 1`) then the assertion value `power(phi, n, q)` with
`phi = (psi * psi) mod 2^32 mod q` equals `1`, and mathematically
`phi^n mod q = 1`, so the safety assertion after check 1 never fails. -/
theorem c8_phi_assert (psi n q : Nat) (hq2 : 2 ≤ q) (hq16 : q < 65536)
    (hpsi2 : 2 ≤ psi) (hpsiq : psi < q) (hn : 1 ≤ n)
    (h : power psi n q = q - 1) :
    power (psi * psi % u32 % q) n q = 1 ∧ (psi * psi % q) ^ n % q = 1 := by
  have hw : psi * psi % u32 = psi * psi :=
    Nat.mod_eq_of_lt (mul_lt_u32 (by omega) (by omega))
  have hphi : psi * psi % q < q := Nat.mod_lt _ (by omega)
  have hmath : psi ^ n % q = q - 1 := by
    rw [← power_correct n hq2 hq16 (by omega)]
    exact h
  have h2n : (psi * psi % q) ^ n % q = 1 := by
    have hpow : (psi * psi % q) ^ n % q = psi ^ (2 * n) % q := by
      rw [← Nat.pow_mod]
      congr 1
      rw [mul_pow, ← pow_add, ← two_mul]
    rw [hpow]
    exact pow_two_n_mod hq2 hmath
  refine ⟨?_, h2n⟩
  rw [hw, power_correct n hq2 hq16 (by omega)]
  exact h2n

/-- C8 witness: the amended theorem applied at `q = 17`, `psi = 4`, `n = 2`
(`4^2 = 16 = q - 1`). -/
theorem c8_phi_assert_witness :
    ((2:Nat) ≤ 17 ∧ (17:Nat) < 65536 ∧ (2:Nat) ≤ 4 ∧ (4:Nat) < 17 ∧ (1:Nat) ≤ 2 ∧
      power 4 2 17 = 17 - 1) ∧
    (power (4 * 4 % u32 % 17) 2 17 = 1 ∧ (4 * 4 % 17) ^ 2 % 17 = 1) :=
  ⟨by decide,
   c8_phi_assert 4 2 17 (by decide) (by decide) (by decide) (by decide) (by decide)
     (by decide)⟩

/-- C9: for every triple of `atol`-parsed command-line arguments on which the
validation predicate fails (argument bounds, root checks, or invertibility),
each tool returns a diagnostic (`Except.error`, printed to the error stream
before a non-zero `exit`), and by the shape of the result type produces no
table output on the standard output stream and does not continue past the
failure. -/
theorem c9_validation_failure (a1 a2 a3 : Int) :
    (¬ validPsiArgs a1 a2 a3 → ∃ d, runPsiTool a1 a2 a3 = Except.error d) ∧
    (¬ validShoupArgs a1 a2 a3 → ∃ d, runShoupTool a1 a2 a3 = Except.error d) := by
  constructor
  · intro hnv
    rcases hres : runPsiTool a1 a2 a3 with d | ts
    · exact ⟨d, rfl⟩
    · exact absurd (runPsiTool_ok_valid a1 a2 a3 ts hres) hnv
  · intro hnv
    rcases hres : runShoupTool a1 a2 a3 with d | ts
    · exact ⟨d, rfl⟩
    · exact absurd (runShoupTool_ok_valid a1 a2 a3 ts hres) hnv

/-- C9 witness: the theorem applied at the spec's rejection scenario
`q = 7681`, `n = 8`, `psi = 2` (which fails the `psi^n = q - 1` check). -/
theorem c9_validation_failure_witness :
    (¬ validPsiArgs 7681 8 2 ∧ ¬ validShoupArgs 7681 8 2) ∧
    (∃ d, runPsiTool 7681 8 2 = Except.error d) ∧
    (∃ d, runShoupTool 7681 8 2 = Except.error d) :=
  ⟨⟨by decide, by decide⟩,
   (c9_validation_failure 7681 8 2).1 (by decide),
   (c9_validation_failure 7681 8 2).2 (by decide)⟩

/-- C10, counterexample to the claim as stated, at two inputs.  First, at
`q = 4294800466 >= 2^31`, `psi = 92681`, `n = 2`, check 1 passes (through a
wrapped `uint32_t` square in `power`), yet `inverse(psi, q)` takes the
not-invertible failure branch: the `int32_t` cast of `q` is negative, so the
Euclid loop exits immediately with `r1 = psi != 1`.  Second, even in the
spec's modulus range, at `q = 65521`, `psi = 65520`, `n = 3`, check 1 passes
exactly (`psi ≡ -1`), but `inverse(psi, q)` aborts on its final debug assert:
`psi * psi^(-1) = 65520^2` wraps to a negative `int32_t` whose truncated
remainder is `-224`, not `1` — so `inverse` does not succeed there either. -/
theorem c10_counterexample :
    ((2:Nat) ≤ 4294800466 ∧ (2:Nat) ≤ 2 ∧ (2:Nat) ≤ 92681 ∧
      (92681:Nat) < 4294800466 ∧
      power 92681 2 4294800466 = 4294800466 - 1 ∧
      inverse 92681 4294800466 = InvResult.notInvertible) ∧
    ((2:Nat) ≤ 65521 ∧ (2:Nat) ≤ 3 ∧ (2:Nat) ≤ 65520 ∧ (65520:Nat) < 65521 ∧
      power 65520 3 65521 = 65521 - 1 ∧
      inverse 65520 65521 = InvResult.assertFail) := by
  decide

/-- C10 (amended): for every `2 <= q < 2^16`, `n >= 2` and `psi ∈ [2, q)`, if
check 1 passes (`power(psi, n, q) = q - 1`) then `psi` is a unit modulo `q`
(`gcd(psi, q) = 1`, because `psi^(2n) ≡ 1 (mod q)`), and `inverse(psi, q)`
never reports not-invertible — the "psi not invertible" failure branch is
unreachable after check 1.  `inverse` either returns the inverse `v` of `psi`
or aborts on its overflow-prone final debug assert, and it succeeds whenever
the 32-bit product `psi * v` stays below `2^31`. -/
theorem c10_psi_invertible (psi n q : Nat) (hq2 : 2 ≤ q) (hq16 : q < 65536)
    (hn : 2 ≤ n) (hpsi2 : 2 ≤ psi) (hpsiq : psi < q)
    (h : power psi n q = q - 1) :
    Nat.gcd psi q = 1 ∧ inverse psi q ≠ InvResult.notInvertible ∧
    ∃ v, v < q ∧ psi * v % q = 1 ∧
      (inverse psi q = InvResult.ok v ∨ inverse psi q = InvResult.assertFail) ∧
      (psi * v < 2147483648 → inverse psi q = InvResult.ok v) := by
  have hmath : psi ^ n % q = q - 1 := by
    rw [← power_correct n hq2 hq16 (by omega)]
    exact h
  have h2n : psi ^ (2 * n) % q = 1 := pow_two_n_mod hq2 hmath
  have hg : Nat.gcd psi q = 1 :=
    coprime_of_pow_mod_one hq2 (by omega) (by omega) h2n
  obtain ⟨v, hvq, hmul, hdisj, hok⟩ :=
    (inverse_spec psi q (by omega) (by omega) hq2 (by omega)).2 hg
  refine ⟨hg, ?_, v, hvq, hmul, hdisj, hok⟩
  rcases hdisj with hok' | hfail
  · rw [hok']
    simp
  · rw [hfail]
    simp

/-- C10 witness: the amended theorem applied at `q = 17`, `psi = 4`, `n = 2`
(`4^2 = 16 = q - 1`; the inverse `13` is returned since `4 * 13 < 2^31`). -/
theorem c10_psi_invertible_witness :
    ((2:Nat) ≤ 17 ∧ (17:Nat) < 65536 ∧ (2:Nat) ≤ 2 ∧ (2:Nat) ≤ 4 ∧ (4:Nat) < 17 ∧
      power 4 2 17 = 17 - 1) ∧
    (Nat.gcd 4 17 = 1 ∧ inverse 4 17 ≠ InvResult.notInvertible ∧
      ∃ v, v < 17 ∧ 4 * v % 17 = 1 ∧
        (inverse 4 17 = InvResult.ok v ∨ inverse 4 17 = InvResult.assertFail) ∧
        (4 * v < 2147483648 → inverse 4 17 = InvResult.ok v)) :=
  ⟨by decide,
   c10_psi_invertible 4 2 17 (by decide) (by decide) (by decide) (by decide)
     (by decide) (by decide)⟩

end Bliss
